import Mathlib

/-!
Verification of the `bignum_shift_left` component (in-place logical left
shift of a fixed-capacity big unsigned integer).

The repository ships only the public header `include/bignum_shift_left.h`
(status enum, version macros, function declarations); the function bodies
and the `bignum_t` representation live in collaborating modules that are
not part of the source tree.  The definitions below therefore embed the
header's declared constants and enum directly, and model the missing
bodies from the specification's algorithm description (section 4.1 of the
spec), choosing the concrete word width `W = 32` and
`CAPACITY_WORDS = 4` used by the spec's concrete scenario
(`CAPACITY_BITS = 128`).
-/

namespace BignumShiftLeft

/-- Machine word width in bits.  Modelled from the spec: the representation
header defining the word type is absent from the tree; the spec's concrete
scenario fixes `W = 32`. -/
def W : Nat := 32

/-- Number of storage words.  Modelled from the spec: `CAPACITY_WORDS`
(derived from the compile-time capacity divided by `W`); the spec's
concrete scenario fixes it to 4. -/
def CAPACITY_WORDS : Nat := 4

/-- Total bit capacity `CAPACITY_BITS = CAPACITY_WORDS * W` (the header
checks that `bignum.h` defines `BIGNUM_CAPACITY`). -/
def BIGNUM_CAPACITY : Nat := CAPACITY_WORDS * W

/-- Version macro `BIGNUM_SHIFT_LEFT_VER_MAJOR` (header line 54). -/
def BIGNUM_SHIFT_LEFT_VER_MAJOR : Nat := 1

/-- Version macro `BIGNUM_SHIFT_LEFT_VER_MINOR` (header line 55). -/
def BIGNUM_SHIFT_LEFT_VER_MINOR : Nat := 0

/-- Version macro `BIGNUM_SHIFT_LEFT_VER_PATCH` (header line 56). -/
def BIGNUM_SHIFT_LEFT_VER_PATCH : Nat := 0

/-- Status codes of `bignum_shift_left` (header lines 61-65). -/
inductive bignum_shift_status_t where
  | BIGNUM_SHIFT_SUCCESS
  | BIGNUM_SHIFT_ERROR_NULL_ARG
  | BIGNUM_SHIFT_ERROR_OVERFLOW
deriving DecidableEq

open bignum_shift_status_t

/-- Integer value of each enum constant, as fixed by the header:
`BIGNUM_SHIFT_SUCCESS = 0`, `BIGNUM_SHIFT_ERROR_NULL_ARG = -1`,
`BIGNUM_SHIFT_ERROR_OVERFLOW = -2`. -/
def statusCode : bignum_shift_status_t → Int
  | BIGNUM_SHIFT_SUCCESS => 0
  | BIGNUM_SHIFT_ERROR_NULL_ARG => -1
  | BIGNUM_SHIFT_ERROR_OVERFLOW => -2

/-- The big-number value type.  Modelled from the spec: `bignum.h` is not in
the tree; the spec's data model gives a fixed-size word array
(index 0 = least significant) and a significant-word count `len`. -/
structure bignum_t where
  words : List Nat
  len : Nat
deriving DecidableEq

/-- Little-endian value of a word list: `words[0] + 2^W * (words[1] + ...)`. -/
def wordsValue : List Nat → Nat
  | [] => 0
  | w :: ws => w + 2 ^ W * wordsValue ws

/-- Mathematical value represented by a `bignum_t`. -/
def value (x : bignum_t) : Nat := wordsValue x.words

/-- Representation invariant from the spec's data model: exactly
`CAPACITY_WORDS` stored words, each below `2^W`; `len ≤ CAPACITY_WORDS`;
words at index `≥ len` are zero; and the top significant word
`words[len-1]` is non-zero whenever `len > 0`. -/
def repInv (x : bignum_t) : Prop :=
  x.words.length = CAPACITY_WORDS ∧
  (∀ w ∈ x.words, w < 2 ^ W) ∧
  x.len ≤ CAPACITY_WORDS ∧
  (∀ i < CAPACITY_WORDS, x.len ≤ i → x.words.getD i 0 = 0) ∧
  (0 < x.len → x.words.getD (x.len - 1) 0 ≠ 0)

instance (x : bignum_t) : Decidable (repInv x) := by
  unfold repInv; infer_instance

/-- Floor base-2 logarithm computed by a bounded halving scan (`fuel`
iterations suffice for arguments below `2 ^ fuel`); this is the obvious
terminating loop a C implementation uses to find a word's top set bit. -/
def log2Fuel : Nat → Nat → Nat
  | 0, _ => 0
  | fuel + 1, n => if 2 ≤ n then log2Fuel fuel (n / 2) + 1 else 0

/-- Modelled from the spec: step 3 of the algorithm computes the index of
the most-significant set bit of `num`, or reports that no bit is set when
the value is zero (`len == 0`).  Under the representation invariant this
is `W * (len - 1)` plus the bit index of the top set bit of the top
significant word. -/
def highest_bit (x : bignum_t) : Option Nat :=
  if x.len = 0 then none
  else some (W * (x.len - 1) + log2Fuel W (x.words.getD (x.len - 1) 0))

/-- Modelled from the spec: step 6 relocates whole words upward by
`word_shift` positions (high-to-low / via a temporary, so sources are read
before being overwritten) and zeroes the vacated low-order words. -/
def relocate (l : List Nat) (word_shift : Nat) : List Nat :=
  (List.range CAPACITY_WORDS).map fun i =>
    if word_shift ≤ i then l.getD (i - word_shift) 0 else 0

/-- Modelled from the spec: step 7 propagates carries for the residual
sub-word shift: each word becomes `(words[i] << bit_shift) | carry_in`
where `carry_in` is the high `bit_shift` bits of the lower neighbour
`words[i-1]` (zero for the lowest word), processed so that each source is
read before it is overwritten. -/
def carryPropagate (l : List Nat) (bit_shift : Nat) : List Nat :=
  (List.range CAPACITY_WORDS).map fun i =>
    ((l.getD i 0 <<< bit_shift) % 2 ^ W) |||
      (if i = 0 then 0 else l.getD (i - 1) 0 >>> (W - bit_shift))

/-- Count of significant words of a little-endian word list: one plus the
highest index holding a non-zero word, or zero when all words are zero
(the spec's step 8 normalization scan). -/
def sigLen : List Nat → Nat
  | [] => 0
  | w :: ws => if sigLen ws = 0 then (if w = 0 then 0 else 1) else sigLen ws + 1

/-- Modelled from the spec: the body of `bignum_shift_left` on a present
(non-NULL) argument, following the algorithm of spec section 4.1 /
header lines 80-89: zero-shift fast path; zero-value short-circuit;
overflow check `highest_bit + shift_amount >= BIGNUM_CAPACITY` before any
mutation; decomposition into `word_shift = shift / W` and
`bit_shift = shift % W`; word relocation; carry propagation (skipped when
`bit_shift = 0`); recomputation of `len`. -/
def bignum_shift_left_core (num : bignum_t) (shift_amount : Nat) :
    bignum_shift_status_t × bignum_t :=
  if shift_amount = 0 then (BIGNUM_SHIFT_SUCCESS, num)
  else
    match highest_bit num with
    | none => (BIGNUM_SHIFT_SUCCESS, num)
    | some h =>
      if BIGNUM_CAPACITY ≤ h + shift_amount then
        (BIGNUM_SHIFT_ERROR_OVERFLOW, num)
      else
        let word_shift := shift_amount / W
        let bit_shift := shift_amount % W
        let relocated := relocate num.words word_shift
        let shifted :=
          if bit_shift = 0 then relocated else carryPropagate relocated bit_shift
        (BIGNUM_SHIFT_SUCCESS, ⟨shifted, sigLen shifted⟩)

/-- Modelled from the spec: `bignum_shift_left(num, shift_amount)`
(header line 96).  A NULL `num` pointer is modelled as `none`; the NULL
check is performed first (spec algorithm step 1), before the zero-shift
fast path, and returns `BIGNUM_SHIFT_ERROR_NULL_ARG` without touching any
state. -/
def bignum_shift_left (num : Option bignum_t) (shift_amount : Nat) :
    bignum_shift_status_t × Option bignum_t :=
  match num with
  | none => (BIGNUM_SHIFT_ERROR_NULL_ARG, none)
  | some x =>
    let r := bignum_shift_left_core x shift_amount
    (r.1, some r.2)

/-- Word `i` of the binary expansion of `v`: `(v >> (W*i)) mod 2^W`. -/
def nthWord (v i : Nat) : Nat := (v >>> (W * i)) % 2 ^ W

/-- The boundary-test value of the spec: a big number whose single set bit
is at bit position `p` (word `p / W` holds `2^(p % W)`, all other words
are zero, `len = p / W + 1`). -/
def singleBit (p : Nat) : bignum_t :=
  ⟨(List.range CAPACITY_WORDS).map fun i => if i = p / W then 2 ^ (p % W) else 0,
    p / W + 1⟩

/-- Modelled from the spec: `bignum_shift_left_get_version_string`
(header line 102) returns the static string "MAJOR.MINOR.PATCH". -/
def bignum_shift_left_get_version_string : String :=
  toString BIGNUM_SHIFT_LEFT_VER_MAJOR ++ "." ++
    toString BIGNUM_SHIFT_LEFT_VER_MINOR ++ "." ++
    toString BIGNUM_SHIFT_LEFT_VER_PATCH

/-- Modelled from the spec: `bignum_shift_left_get_version_number`
(header line 109) returns the packed integer
`MAJOR<<16 | MINOR<<8 | PATCH`. -/
def bignum_shift_left_get_version_number : Nat :=
  (BIGNUM_SHIFT_LEFT_VER_MAJOR <<< 16) |||
    (BIGNUM_SHIFT_LEFT_VER_MINOR <<< 8) |||
    BIGNUM_SHIFT_LEFT_VER_PATCH

/-! ### Basic structural lemmas -/

theorem list_len4 (l : List Nat) (h : l.length = CAPACITY_WORDS) :
    ∃ a b c d : Nat, l = [a, b, c, d] := by
  rcases l with _ | ⟨a, l⟩
  · simp [CAPACITY_WORDS] at h
  rcases l with _ | ⟨b, l⟩
  · simp [CAPACITY_WORDS] at h
  rcases l with _ | ⟨c, l⟩
  · simp [CAPACITY_WORDS] at h
  rcases l with _ | ⟨d, l⟩
  · simp [CAPACITY_WORDS] at h
  rcases l with _ | ⟨e, l⟩
  · exact ⟨a, b, c, d, rfl⟩
  · simp [CAPACITY_WORDS] at h

theorem wordsValue_quad (a b c d : Nat) :
    wordsValue [a, b, c, d] =
      a + 2 ^ 32 * b + 2 ^ 64 * c + 2 ^ 96 * d := by
  simp [wordsValue, W]
  ring

theorem range4 : List.range CAPACITY_WORDS = [0, 1, 2, 3] := rfl

theorem wordsValue_lt_cap (a b c d : Nat) (ha : a < 2 ^ 32) (hb : b < 2 ^ 32)
    (hc : c < 2 ^ 32) (hd : d < 2 ^ 32) :
    wordsValue [a, b, c, d] < 2 ^ 128 := by
  rw [wordsValue_quad]
  omega

/-! ### Bit-level word lemmas -/

theorem nthWord_testBit (v i t : Nat) :
    (nthWord v i).testBit t = (decide (t < 32) && v.testBit (32 * i + t)) := by
  simp only [nthWord, W]
  rw [Nat.testBit_mod_two_pow, Nat.testBit_shiftRight]

theorem nthWord_lt (v i : Nat) : nthWord v i < 2 ^ 32 :=
  Nat.mod_lt _ (by norm_num)

/-- Destination words strictly below the word shift are zero. -/
theorem nthWord_shift_low (v q r i : Nat) (h : i < q) :
    nthWord (v <<< (32 * q + r)) i = 0 := by
  apply Nat.eq_of_testBit_eq
  intro t
  rw [nthWord_testBit, Nat.zero_testBit]
  by_cases ht : t < 32
  · have h32 : ¬ (32 * i + t ≥ 32 * q + r) := by omega
    simp [Nat.testBit_shiftLeft, ht, h32]
  · simp [ht]

/-- The lowest occupied destination word receives only the shifted source
word; its carry-in is empty. -/
theorem nthWord_shift_lo (v q r : Nat) (hr : r < 32) :
    (nthWord v 0 <<< r) % 2 ^ 32 = nthWord (v <<< (32 * q + r)) q := by
  apply Nat.eq_of_testBit_eq
  intro t
  simp only [Nat.testBit_mod_two_pow, Nat.testBit_shiftLeft, nthWord_testBit]
  by_cases ht : t < 32
  · by_cases htr : r ≤ t
    · have e1 : 32 * q + t ≥ 32 * q + r := by omega
      have e2 : t - r < 32 := by omega
      have e3 : t - r = 32 * q + t - (32 * q + r) := by omega
      simp [ht, htr, e1, e2]
      rw [e3]
    · have e1 : ¬ (32 * q + t ≥ 32 * q + r) := by omega
      simp [ht, htr, e1]
  · simp [ht]

/-- A destination word above the word shift is the OR of its shifted
source word with the high bits carried out of the next lower source
word. -/
theorem nthWord_shift_hi (v q j r : Nat) (hr0 : 0 < r) (hr : r < 32) :
    ((nthWord v (j + 1) <<< r) % 2 ^ 32) ||| (nthWord v j >>> (32 - r)) =
      nthWord (v <<< (32 * q + r)) (j + 1 + q) := by
  apply Nat.eq_of_testBit_eq
  intro t
  simp only [Nat.testBit_lor, Nat.testBit_mod_two_pow, Nat.testBit_shiftLeft,
    Nat.testBit_shiftRight, nthWord_testBit]
  by_cases ht : t < 32
  · by_cases htr : r ≤ t
    · have e1 : ¬ (32 - r + t < 32) := by omega
      have e2 : 32 * (j + 1 + q) + t ≥ 32 * q + r := by omega
      have e3 : t - r < 32 := by omega
      have e4 : 32 * (j + 1) + (t - r) = 32 * (j + 1 + q) + t - (32 * q + r) := by
        omega
      simp [ht, htr, e1, e2, e3, e4]
    · have e1 : 32 - r + t < 32 := by omega
      have e2 : 32 * (j + 1 + q) + t ≥ 32 * q + r := by omega
      have e3 : 32 * j + (32 - r + t) = 32 * (j + 1 + q) + t - (32 * q + r) := by
        omega
      simp [ht, htr, e1, e2, e3]
  · have e1 : ¬ (32 - r + t < 32) := by omega
    simp [ht, e1]

/-- A pure word-aligned shift relocates each word unchanged. -/
theorem nthWord_shift_word (v q j : Nat) :
    nthWord v j = nthWord (v <<< (32 * q)) (j + q) := by
  apply Nat.eq_of_testBit_eq
  intro t
  simp only [Nat.testBit_shiftLeft, nthWord_testBit]
  by_cases ht : t < 32
  · have e1 : 32 * (j + q) + t ≥ 32 * q := by omega
    have e2 : 32 * j + t = 32 * (j + q) + t - 32 * q := by omega
    simp [ht, e1, e2]
  · simp [ht]

/-- Recomposing the four binary words of `N` yields `N mod 2^128`. -/
theorem wordsValue_nthWords (N : Nat) :
    wordsValue [nthWord N 0, nthWord N 1, nthWord N 2, nthWord N 3] =
      N % 2 ^ 128 := by
  rw [wordsValue_quad]
  simp only [nthWord, W, Nat.shiftRight_eq_div_pow]
  norm_num
  omega

/-- The stored words of a four-word value are its binary words. -/
theorem nthWord_quad (a b c d : Nat) (ha : a < 2 ^ 32) (hb : b < 2 ^ 32)
    (hc : c < 2 ^ 32) (hd : d < 2 ^ 32) :
    nthWord (wordsValue [a, b, c, d]) 0 = a ∧
      nthWord (wordsValue [a, b, c, d]) 1 = b ∧
      nthWord (wordsValue [a, b, c, d]) 2 = c ∧
      nthWord (wordsValue [a, b, c, d]) 3 = d := by
  rw [wordsValue_quad]
  simp only [nthWord, W, Nat.shiftRight_eq_div_pow]
  norm_num
  refine ⟨by omega, by omega, by omega, by omega⟩

theorem nthWord_shift_word_low (v q i : Nat) (h : i < q) :
    nthWord (v <<< (32 * q)) i = 0 := by
  apply Nat.eq_of_testBit_eq
  intro t
  rw [nthWord_testBit, Nat.zero_testBit]
  by_cases ht : t < 32
  · have h32 : ¬ (32 * i + t ≥ 32 * q) := by omega
    simp [Nat.testBit_shiftLeft, ht, h32]
  · simp [ht]

/-- Word-aligned relocation of the four binary words of `v` stores the
words of `v` shifted by whole words (of its value modulo the capacity). -/
theorem relocated_value (v q : Nat) (hq : q < 4) :
    wordsValue (relocate [nthWord v 0, nthWord v 1, nthWord v 2, nthWord v 3] q) =
      (v <<< (32 * q)) % 2 ^ 128 := by
  have h4 : q = 0 ∨ q = 1 ∨ q = 2 ∨ q = 3 := by omega
  rcases h4 with h | h | h | h <;> subst h
  · norm_num
    have base := wordsValue_nthWords v
    norm_num at base
    rw [← base]
    simp only [relocate, range4, List.map]
    norm_num
  · norm_num
    have base := wordsValue_nthWords (v <<< 32)
    norm_num at base
    rw [← base]
    simp only [relocate, range4, List.map]
    norm_num
    rw [show nthWord (v <<< 32) 0 = 0 from by
          simpa using nthWord_shift_word_low v 1 0 (by norm_num)]
    rw [show nthWord (v <<< 32) 1 = nthWord v 0 from by
          simpa using (nthWord_shift_word v 1 0).symm]
    rw [show nthWord (v <<< 32) 2 = nthWord v 1 from by
          simpa using (nthWord_shift_word v 1 1).symm]
    rw [show nthWord (v <<< 32) 3 = nthWord v 2 from by
          simpa using (nthWord_shift_word v 1 2).symm]
  · norm_num
    have base := wordsValue_nthWords (v <<< 64)
    norm_num at base
    rw [← base]
    simp only [relocate, range4, List.map]
    norm_num
    rw [show nthWord (v <<< 64) 0 = 0 from by
          simpa using nthWord_shift_word_low v 2 0 (by norm_num)]
    rw [show nthWord (v <<< 64) 1 = 0 from by
          simpa using nthWord_shift_word_low v 2 1 (by norm_num)]
    rw [show nthWord (v <<< 64) 2 = nthWord v 0 from by
          simpa using (nthWord_shift_word v 2 0).symm]
    rw [show nthWord (v <<< 64) 3 = nthWord v 1 from by
          simpa using (nthWord_shift_word v 2 1).symm]
  · norm_num
    have base := wordsValue_nthWords (v <<< 96)
    norm_num at base
    rw [← base]
    simp only [relocate, range4, List.map]
    norm_num
    rw [show nthWord (v <<< 96) 0 = 0 from by
          simpa using nthWord_shift_word_low v 3 0 (by norm_num)]
    rw [show nthWord (v <<< 96) 1 = 0 from by
          simpa using nthWord_shift_word_low v 3 1 (by norm_num)]
    rw [show nthWord (v <<< 96) 2 = 0 from by
          simpa using nthWord_shift_word_low v 3 2 (by norm_num)]
    rw [show nthWord (v <<< 96) 3 = nthWord v 0 from by
          simpa using (nthWord_shift_word v 3 0).symm]

/-- Relocation followed by sub-word carry propagation stores the words of
`v` shifted by `32*q + r` bits (of its value modulo the capacity). -/
theorem shifted_value (v q r : Nat) (hr0 : 0 < r) (hr : r < 32) (hq : q < 4) :
    wordsValue
        (carryPropagate
          (relocate [nthWord v 0, nthWord v 1, nthWord v 2, nthWord v 3] q) r) =
      (v <<< (32 * q + r)) % 2 ^ 128 := by
  have h4 : q = 0 ∨ q = 1 ∨ q = 2 ∨ q = 3 := by omega
  rcases h4 with h | h | h | h <;> subst h
  · norm_num
    have base := wordsValue_nthWords (v <<< r)
    norm_num at base
    rw [← base]
    simp only [relocate, carryPropagate, range4, List.map, W]
    norm_num
    rw [show nthWord (v <<< r) 0 = nthWord v 0 <<< r % 4294967296 from by
          simpa using (nthWord_shift_lo v 0 r hr).symm]
    rw [show nthWord (v <<< r) 1 =
          nthWord v 1 <<< r % 4294967296 ||| nthWord v 0 >>> (32 - r) from by
          simpa using (nthWord_shift_hi v 0 0 r hr0 hr).symm]
    rw [show nthWord (v <<< r) 2 =
          nthWord v 2 <<< r % 4294967296 ||| nthWord v 1 >>> (32 - r) from by
          simpa using (nthWord_shift_hi v 0 1 r hr0 hr).symm]
    rw [show nthWord (v <<< r) 3 =
          nthWord v 3 <<< r % 4294967296 ||| nthWord v 2 >>> (32 - r) from by
          simpa using (nthWord_shift_hi v 0 2 r hr0 hr).symm]
  · norm_num
    have base := wordsValue_nthWords (v <<< (32 + r))
    norm_num at base
    rw [← base]
    simp only [relocate, carryPropagate, range4, List.map, W]
    norm_num
    rw [show nthWord (v <<< (32 + r)) 0 = 0 from by
          simpa using nthWord_shift_low v 1 r 0 (by norm_num)]
    rw [show nthWord (v <<< (32 + r)) 1 = nthWord v 0 <<< r % 4294967296 from by
          simpa using (nthWord_shift_lo v 1 r hr).symm]
    rw [show nthWord (v <<< (32 + r)) 2 =
          nthWord v 1 <<< r % 4294967296 ||| nthWord v 0 >>> (32 - r) from by
          simpa using (nthWord_shift_hi v 1 0 r hr0 hr).symm]
    rw [show nthWord (v <<< (32 + r)) 3 =
          nthWord v 2 <<< r % 4294967296 ||| nthWord v 1 >>> (32 - r) from by
          simpa using (nthWord_shift_hi v 1 1 r hr0 hr).symm]
  · norm_num
    have base := wordsValue_nthWords (v <<< (64 + r))
    norm_num at base
    rw [← base]
    simp only [relocate, carryPropagate, range4, List.map, W]
    norm_num
    rw [show nthWord (v <<< (64 + r)) 0 = 0 from by
          simpa using nthWord_shift_low v 2 r 0 (by norm_num)]
    rw [show nthWord (v <<< (64 + r)) 1 = 0 from by
          simpa using nthWord_shift_low v 2 r 1 (by norm_num)]
    rw [show nthWord (v <<< (64 + r)) 2 = nthWord v 0 <<< r % 4294967296 from by
          simpa using (nthWord_shift_lo v 2 r hr).symm]
    rw [show nthWord (v <<< (64 + r)) 3 =
          nthWord v 1 <<< r % 4294967296 ||| nthWord v 0 >>> (32 - r) from by
          simpa using (nthWord_shift_hi v 2 0 r hr0 hr).symm]
  · norm_num
    have base := wordsValue_nthWords (v <<< (96 + r))
    norm_num at base
    rw [← base]
    simp only [relocate, carryPropagate, range4, List.map, W]
    norm_num
    rw [show nthWord (v <<< (96 + r)) 0 = 0 from by
          simpa using nthWord_shift_low v 3 r 0 (by norm_num)]
    rw [show nthWord (v <<< (96 + r)) 1 = 0 from by
          simpa using nthWord_shift_low v 3 r 1 (by norm_num)]
    rw [show nthWord (v <<< (96 + r)) 2 = 0 from by
          simpa using nthWord_shift_low v 3 r 2 (by norm_num)]
    rw [show nthWord (v <<< (96 + r)) 3 = nthWord v 0 <<< r % 4294967296 from by
          simpa using (nthWord_shift_lo v 3 r hr).symm]

/-! ### Highest-bit lemmas -/

theorem log2Fuel_eq_log2 : ∀ f n, n < 2 ^ f → log2Fuel f n = Nat.log2 n := by
  intro f
  induction f with
  | zero =>
    intro n h
    have hn : n = 0 := by omega
    subst hn
    rw [Nat.log2]
    simp [log2Fuel]
  | succ f ih =>
    intro n h
    rw [log2Fuel]
    by_cases h2 : 2 ≤ n
    · have hlt : n / 2 < 2 ^ f := by
        rw [Nat.div_lt_iff_lt_mul (by norm_num)]
        calc n < 2 ^ (f + 1) := h
          _ = 2 ^ f * 2 := by rw [pow_succ]
      rw [if_pos h2, ih (n / 2) hlt]
      conv_rhs => rw [Nat.log2]
      simp [h2]
    · rw [if_neg h2]
      conv_rhs => rw [Nat.log2]
      simp [h2]

/-- The floor base-2 logarithm of a value decomposed as a low part below
`2^e` plus `2^e` times a non-zero high part. -/
theorem log2_split (low T e : Nat) (hlow : low < 2 ^ e) (hT : T ≠ 0) :
    Nat.log2 (low + 2 ^ e * T) = e + Nat.log2 T := by
  have hTpos : 0 < T := Nat.pos_of_ne_zero hT
  have hepos : 0 < 2 ^ e := Nat.pos_pow_of_pos e (by norm_num)
  have hv0 : low + 2 ^ e * T ≠ 0 := by
    have : 0 < 2 ^ e * T := Nat.mul_pos hepos hTpos
    omega
  have hup : low + 2 ^ e * T < 2 ^ (e + Nat.log2 T + 1) := by
    have h1 : T < 2 ^ (Nat.log2 T + 1) := Nat.lt_log2_self
    calc low + 2 ^ e * T < 2 ^ e + 2 ^ e * T := by omega
      _ = 2 ^ e * (T + 1) := by ring
      _ ≤ 2 ^ e * 2 ^ (Nat.log2 T + 1) := Nat.mul_le_mul_left _ (by omega)
      _ = 2 ^ (e + Nat.log2 T + 1) := by rw [← pow_add, Nat.add_assoc]
  have hlo : 2 ^ (e + Nat.log2 T) ≤ low + 2 ^ e * T := by
    have h1 : 2 ^ Nat.log2 T ≤ T := Nat.log2_self_le hT
    calc 2 ^ (e + Nat.log2 T) = 2 ^ e * 2 ^ Nat.log2 T := pow_add 2 e _
      _ ≤ 2 ^ e * T := Nat.mul_le_mul_left _ h1
      _ ≤ low + 2 ^ e * T := by omega
  have u := (Nat.log2_lt hv0).2 hup
  have l := (Nat.le_log2 hv0).2 hlo
  omega

/-- Under the representation invariant on a non-zero value, the modelled
`highest_bit` computes exactly the index of the most-significant set bit,
i.e. the floor base-2 logarithm of the stored value. -/
theorem highest_bit_eq (x : bignum_t) (hinv : repInv x) (hl : 0 < x.len) :
    highest_bit x = some (Nat.log2 (value x)) ∧ value x ≠ 0 := by
  obtain ⟨hlen, hbnd, hle, hzero, htop⟩ := hinv
  obtain ⟨a, b, c, d, hw⟩ := list_len4 _ hlen
  rw [hw] at hbnd
  have ha : a < 2 ^ 32 := by simpa [W] using hbnd a (by simp)
  have hb : b < 2 ^ 32 := by simpa [W] using hbnd b (by simp)
  have hc : c < 2 ^ 32 := by simpa [W] using hbnd c (by simp)
  have hd : d < 2 ^ 32 := by simpa [W] using hbnd d (by simp)
  have hv : value x = a + 2 ^ 32 * b + 2 ^ 64 * c + 2 ^ 96 * d := by
    rw [value, hw, wordsValue_quad]
  unfold highest_bit
  rw [if_neg (by omega)]
  simp only [CAPACITY_WORDS] at hle hzero
  have hcase : x.len = 1 ∨ x.len = 2 ∨ x.len = 3 ∨ x.len = 4 := by omega
  rcases hcase with h | h | h | h <;> rw [h] at htop ⊢
  · have hb0 : b = 0 := by simpa [hw] using hzero 1 (by norm_num) (by omega)
    have hc0 : c = 0 := by simpa [hw] using hzero 2 (by norm_num) (by omega)
    have hd0 : d = 0 := by simpa [hw] using hzero 3 (by norm_num) (by omega)
    have ha0 : a ≠ 0 := by simpa [hw] using htop (by norm_num)
    have hveq : value x = a := by omega
    constructor
    · rw [hveq, hw]
      simp [W, log2Fuel_eq_log2 32 a ha]
    · omega
  · have hc0 : c = 0 := by simpa [hw] using hzero 2 (by norm_num) (by omega)
    have hd0 : d = 0 := by simpa [hw] using hzero 3 (by norm_num) (by omega)
    have hb0 : b ≠ 0 := by simpa [hw] using htop (by norm_num)
    have hveq : value x = a + 2 ^ 32 * b := by omega
    constructor
    · rw [hveq, hw, log2_split a b 32 ha hb0]
      simp [W, log2Fuel_eq_log2 32 b hb]
    · have : 0 < 2 ^ 32 * b := Nat.mul_pos (by norm_num) (Nat.pos_of_ne_zero hb0)
      omega
  · have hd0 : d = 0 := by simpa [hw] using hzero 3 (by norm_num) (by omega)
    have hc0 : c ≠ 0 := by simpa [hw] using htop (by norm_num)
    have hveq : value x = (a + 2 ^ 32 * b) + 2 ^ 64 * c := by omega
    constructor
    · have hlow : a + 2 ^ 32 * b < 2 ^ 64 := by omega
      rw [hveq, hw, log2_split (a + 2 ^ 32 * b) c 64 hlow hc0]
      simp [W, log2Fuel_eq_log2 32 c hc]
    · have : 0 < 2 ^ 64 * c := Nat.mul_pos (by norm_num) (Nat.pos_of_ne_zero hc0)
      omega
  · have hd0 : d ≠ 0 := by simpa [hw] using htop (by norm_num)
    have hveq : value x = (a + 2 ^ 32 * b + 2 ^ 64 * c) + 2 ^ 96 * d := by omega
    constructor
    · have hlow : a + 2 ^ 32 * b + 2 ^ 64 * c < 2 ^ 96 := by omega
      rw [hveq, hw, log2_split (a + 2 ^ 32 * b + 2 ^ 64 * c) d 96 hlow hd0]
      simp [W, log2Fuel_eq_log2 32 d hd]
    · have : 0 < 2 ^ 96 * d := Nat.mul_pos (by norm_num) (Nat.pos_of_ne_zero hd0)
      omega

theorem core_error_no_mutation (x : bignum_t) (s : Nat)
    (h : (bignum_shift_left_core x s).1 ≠ bignum_shift_status_t.BIGNUM_SHIFT_SUCCESS) :
    (bignum_shift_left_core x s).2 = x := by
  unfold bignum_shift_left_core at h ⊢
  by_cases hs : s = 0
  · simp [hs] at h
  rcases hb : highest_bit x with _ | hv
  · simp [hs, hb] at h
  · by_cases hcap : BIGNUM_CAPACITY ≤ hv + s
    · simp [hs, hb, hcap]
    · simp [hs, hb, hcap] at h

theorem value_eq_zero_of_len_zero (x : bignum_t) (hinv : repInv x)
    (h0 : x.len = 0) : value x = 0 := by
  obtain ⟨hlen, _, _, hzero, _⟩ := hinv
  obtain ⟨a, b, c, d, hw⟩ := list_len4 x.words hlen
  have ha : a = 0 := by simpa [hw] using hzero 0 (by norm_num [CAPACITY_WORDS]) (by omega)
  have hb : b = 0 := by simpa [hw] using hzero 1 (by norm_num [CAPACITY_WORDS]) (by omega)
  have hc : c = 0 := by simpa [hw] using hzero 2 (by norm_num [CAPACITY_WORDS]) (by omega)
  have hd : d = 0 := by simpa [hw] using hzero 3 (by norm_num [CAPACITY_WORDS]) (by omega)
  simp [value, hw, ha, hb, hc, hd, wordsValue]

theorem value_lt_cap (x : bignum_t) (hinv : repInv x) : value x < 2 ^ 128 := by
  obtain ⟨hlen, hbnd, _, _, _⟩ := hinv
  obtain ⟨a, b, c, d, hw⟩ := list_len4 _ hlen
  rw [hw] at hbnd
  rw [value, hw]
  exact wordsValue_lt_cap a b c d
    (by simpa [W] using hbnd a (by simp)) (by simpa [W] using hbnd b (by simp))
    (by simpa [W] using hbnd c (by simp)) (by simpa [W] using hbnd d (by simp))

/-- On every success path the stored value is multiplied exactly by
`2^shift_amount`, and that exact product fits in the capacity. -/
theorem core_success_value (x : bignum_t) (s : Nat) (hinv : repInv x)
    (hst : (bignum_shift_left_core x s).1 = BIGNUM_SHIFT_SUCCESS) :
    value (bignum_shift_left_core x s).2 = value x * 2 ^ s ∧
      value x * 2 ^ s < 2 ^ BIGNUM_CAPACITY := by
  have hvlt : value x < 2 ^ 128 := value_lt_cap x hinv
  have hcap128 : (2 : Nat) ^ BIGNUM_CAPACITY = 2 ^ 128 := by
    norm_num [BIGNUM_CAPACITY, CAPACITY_WORDS, W]
  by_cases hs : s = 0
  · subst hs
    simp only [bignum_shift_left_core, if_pos rfl]
    rw [hcap128]
    simpa using hvlt
  by_cases hl0 : x.len = 0
  · have hv0 : value x = 0 := value_eq_zero_of_len_zero x hinv hl0
    unfold bignum_shift_left_core
    rw [if_neg hs]
    simp [highest_bit, hl0, hv0, hcap128]
  have hl : 0 < x.len := Nat.pos_of_ne_zero hl0
  obtain ⟨hhb, hvne⟩ := highest_bit_eq x hinv hl
  unfold bignum_shift_left_core at hst ⊢
  rw [if_neg hs, hhb] at hst ⊢
  simp only [] at hst ⊢
  by_cases hcap : BIGNUM_CAPACITY ≤ Nat.log2 (value x) + s
  · rw [if_pos hcap] at hst
    simp at hst
  rw [if_neg hcap] at hst ⊢
  have hsle : Nat.log2 (value x) + s < 128 := by
    simp only [BIGNUM_CAPACITY, CAPACITY_WORDS, W] at hcap
    omega
  have hbound : value x * 2 ^ s < 2 ^ 128 := by
    have h1 : value x < 2 ^ (Nat.log2 (value x) + 1) := Nat.lt_log2_self
    calc value x * 2 ^ s < 2 ^ (Nat.log2 (value x) + 1) * 2 ^ s :=
          mul_lt_mul_of_pos_right h1 (Nat.pos_pow_of_pos s (by norm_num))
      _ = 2 ^ (Nat.log2 (value x) + 1 + s) := by rw [← pow_add]
      _ ≤ 2 ^ 128 := Nat.pow_le_pow_right (by norm_num) (by omega)
  refine ⟨?_, by rw [hcap128]; exact hbound⟩
  obtain ⟨hlen, hbnd, _, _, _⟩ := hinv
  obtain ⟨a, b, c, d, hw⟩ := list_len4 _ hlen
  rw [hw] at hbnd
  have ha : a < 2 ^ 32 := by simpa [W] using hbnd a (by simp)
  have hb : b < 2 ^ 32 := by simpa [W] using hbnd b (by simp)
  have hc : c < 2 ^ 32 := by simpa [W] using hbnd c (by simp)
  have hd : d < 2 ^ 32 := by simpa [W] using hbnd d (by simp)
  have hv : value x = wordsValue [a, b, c, d] := by rw [value, hw]
  have hwords : x.words =
      [nthWord (value x) 0, nthWord (value x) 1,
        nthWord (value x) 2, nthWord (value x) 3] := by
    obtain ⟨e0, e1, e2, e3⟩ := nthWord_quad a b c d ha hb hc hd
    rw [hw, hv]
    simp [e0, e1, e2, e3]
  have hs127 : s < 128 := by omega
  have hqlt : s / 32 < 4 := by omega
  have hv2 : wordsValue [nthWord (value x) 0, nthWord (value x) 1,
      nthWord (value x) 2, nthWord (value x) 3] = value x := by
    rw [wordsValue_nthWords]
    exact Nat.mod_eq_of_lt hvlt
  by_cases hr : s % W = 0
  · rw [if_pos hr]
    simp only [value]
    rw [hwords, hv2]
    simp only [W]
    rw [relocated_value (value x) (s / 32) hqlt]
    have he : 32 * (s / 32) = s := by
      simp only [W] at hr
      omega
    rw [he, Nat.shiftLeft_eq]
    exact Nat.mod_eq_of_lt hbound
  · rw [if_neg hr]
    simp only [value]
    rw [hwords, hv2]
    simp only [W]
    simp only [W] at hr
    rw [shifted_value (value x) (s / 32) (s % 32) (Nat.pos_of_ne_zero hr)
      (Nat.mod_lt s (by norm_num)) hqlt]
    have he : 32 * (s / 32) + s % 32 = s := by omega
    rw [he, Nat.shiftLeft_eq]
    exact Nat.mod_eq_of_lt hbound

/-! ### Normalization lemmas -/

theorem sigLen_le (l : List Nat) : sigLen l ≤ l.length := by
  induction l with
  | nil => simp [sigLen]
  | cons w ws ih =>
    rw [sigLen]
    by_cases h : sigLen ws = 0
    · by_cases hw : w = 0 <;> simp [h, hw]
    · rw [if_neg h]
      simpa using ih

theorem sigLen_getD_zero (l : List Nat) :
    ∀ i, sigLen l ≤ i → l.getD i 0 = 0 := by
  induction l with
  | nil => intro i _; simp
  | cons w ws ih =>
    intro i hi
    rw [sigLen] at hi
    by_cases h : sigLen ws = 0
    · by_cases hw : w = 0
      · cases i with
        | zero => simpa using hw
        | succ j => simpa using ih j (by omega)
      · rw [if_pos h, if_neg hw] at hi
        cases i with
        | zero => omega
        | succ j => simpa using ih j (by omega)
    · rw [if_neg h] at hi
      cases i with
      | zero => omega
      | succ j => simpa using ih j (by omega)

theorem sigLen_top_ne_zero (l : List Nat) (h : 0 < sigLen l) :
    l.getD (sigLen l - 1) 0 ≠ 0 := by
  induction l with
  | nil => simp [sigLen] at h
  | cons w ws ih =>
    rw [sigLen] at h ⊢
    by_cases hz : sigLen ws = 0
    · by_cases hw : w = 0
      · rw [if_pos hz, if_pos hw] at h
        omega
      · rw [if_pos hz, if_neg hw]
        simpa using hw
    · rw [if_neg hz] at h ⊢
      have h1 : 0 < sigLen ws := Nat.pos_of_ne_zero hz
      obtain ⟨j, hj⟩ : ∃ j, sigLen ws = j + 1 := ⟨sigLen ws - 1, by omega⟩
      rw [hj]
      have := ih h1
      rw [hj] at this
      simpa using this

theorem getD_lt_of_all (l : List Nat) (hl : ∀ w ∈ l, w < 2 ^ 32) (i : Nat) :
    l.getD i 0 < 2 ^ 32 := by
  by_cases h : i < l.length
  · rw [List.getD_eq_getElem l 0 h]
    exact hl _ (List.getElem_mem h)
  · rw [List.getD_eq_default l 0 (by omega)]
    norm_num

theorem relocate_mem_lt (l : List Nat) (hl : ∀ w ∈ l, w < 2 ^ 32) (q : Nat) :
    ∀ w ∈ relocate l q, w < 2 ^ 32 := by
  intro w hw
  simp only [relocate, List.mem_map, List.mem_range] at hw
  obtain ⟨i, _, hi⟩ := hw
  rw [← hi]
  split
  · exact getD_lt_of_all l hl _
  · norm_num

theorem carryPropagate_mem_lt (l : List Nat) (hl : ∀ w ∈ l, w < 2 ^ 32)
    (r : Nat) : ∀ w ∈ carryPropagate l r, w < 2 ^ 32 := by
  intro w hw
  simp only [carryPropagate, List.mem_map, List.mem_range, W] at hw
  obtain ⟨i, _, hi⟩ := hw
  rw [← hi]
  apply Nat.or_lt_two_pow
  · exact Nat.mod_lt _ (by norm_num)
  · split
    · norm_num
    · calc l.getD (i - 1) 0 >>> (32 - r) ≤ l.getD (i - 1) 0 := by
            rw [Nat.shiftRight_eq_div_pow]
            exact Nat.div_le_self _ _
        _ < 2 ^ 32 := getD_lt_of_all l hl _

theorem relocate_length (l : List Nat) (q : Nat) : (relocate l q).length = 4 := by
  simp [relocate, CAPACITY_WORDS]

theorem carryPropagate_length (l : List Nat) (r : Nat) :
    (carryPropagate l r).length = 4 := by
  simp [carryPropagate, CAPACITY_WORDS]

/-- The representation invariant is restored after every successful call:
the result state satisfies it again. -/
theorem core_success_repInv (x : bignum_t) (s : Nat) (hinv : repInv x)
    (hst : (bignum_shift_left_core x s).1 = BIGNUM_SHIFT_SUCCESS) :
    repInv (bignum_shift_left_core x s).2 := by
  by_cases hs : s = 0
  · subst hs
    simpa [bignum_shift_left_core] using hinv
  by_cases hl0 : x.len = 0
  · unfold bignum_shift_left_core
    rw [if_neg hs]
    simpa [highest_bit, hl0] using hinv
  have hl : 0 < x.len := Nat.pos_of_ne_zero hl0
  obtain ⟨hhb, _⟩ := highest_bit_eq x hinv hl
  unfold bignum_shift_left_core at hst ⊢
  rw [if_neg hs, hhb] at hst ⊢
  simp only [] at hst ⊢
  by_cases hcap : BIGNUM_CAPACITY ≤ Nat.log2 (value x) + s
  · rw [if_pos hcap] at hst
    simp at hst
  rw [if_neg hcap] at hst ⊢
  have hxw : ∀ w ∈ x.words, w < 2 ^ 32 := by
    obtain ⟨_, hbnd, _, _, _⟩ := hinv
    simpa [W] using hbnd
  have hshw : ∀ w ∈ (if s % W = 0 then relocate x.words (s / W)
      else carryPropagate (relocate x.words (s / W)) (s % W)), w < 2 ^ 32 := by
    split
    · exact relocate_mem_lt x.words hxw _
    · exact carryPropagate_mem_lt _ (relocate_mem_lt x.words hxw _) _
  have hshl : (if s % W = 0 then relocate x.words (s / W)
      else carryPropagate (relocate x.words (s / W)) (s % W)).length = 4 := by
    split
    · exact relocate_length _ _
    · exact carryPropagate_length _ _
  refine ⟨by simpa [CAPACITY_WORDS] using hshl, by simpa [W] using hshw,
    ?_, ?_, ?_⟩
  · simp only [CAPACITY_WORDS]
    calc sigLen _ ≤ _ := sigLen_le _
      _ = 4 := hshl
  · intro i _ hi
    exact sigLen_getD_zero _ i hi
  · intro hpos
    exact sigLen_top_ne_zero _ hpos

/-- Under the invariant the stored `len` is exactly the number of
significant words the normalization scan would report. -/
theorem repInv_len_eq_sigLen (x : bignum_t) (hinv : repInv x) :
    x.len = sigLen x.words := by
  obtain ⟨hlen, _, hle, hzero, htop⟩ := hinv
  obtain ⟨a, b, c, d, hw⟩ := list_len4 x.words hlen
  simp only [CAPACITY_WORDS] at hle hzero
  have hcase : x.len = 0 ∨ x.len = 1 ∨ x.len = 2 ∨ x.len = 3 ∨ x.len = 4 := by
    omega
  rcases hcase with h | h | h | h | h <;> rw [h] at htop ⊢ <;> rw [hw]
  · have ha : a = 0 := by simpa [hw] using hzero 0 (by norm_num) (by omega)
    have hb : b = 0 := by simpa [hw] using hzero 1 (by norm_num) (by omega)
    have hc : c = 0 := by simpa [hw] using hzero 2 (by norm_num) (by omega)
    have hd : d = 0 := by simpa [hw] using hzero 3 (by norm_num) (by omega)
    simp [sigLen, ha, hb, hc, hd]
  · have ha : a ≠ 0 := by simpa [hw] using htop (by norm_num)
    have hb : b = 0 := by simpa [hw] using hzero 1 (by norm_num) (by omega)
    have hc : c = 0 := by simpa [hw] using hzero 2 (by norm_num) (by omega)
    have hd : d = 0 := by simpa [hw] using hzero 3 (by norm_num) (by omega)
    simp [sigLen, ha, hb, hc, hd]
  · have hb : b ≠ 0 := by simpa [hw] using htop (by norm_num)
    have hc : c = 0 := by simpa [hw] using hzero 2 (by norm_num) (by omega)
    have hd : d = 0 := by simpa [hw] using hzero 3 (by norm_num) (by omega)
    simp [sigLen, hb, hc, hd]
  · have hc : c ≠ 0 := by simpa [hw] using htop (by norm_num)
    have hd : d = 0 := by simpa [hw] using hzero 3 (by norm_num) (by omega)
    simp [sigLen, hc, hd]
  · have hd : d ≠ 0 := by simpa [hw] using htop (by norm_num)
    simp [sigLen, hd]

/-- Under the invariant, `len = 0` holds exactly for the zero value. -/
theorem repInv_len_zero_iff (x : bignum_t) (hinv : repInv x) :
    x.len = 0 ↔ value x = 0 := by
  constructor
  · exact value_eq_zero_of_len_zero x hinv
  · intro h
    by_contra hne
    exact (highest_bit_eq x hinv (Nat.pos_of_ne_zero hne)).2 h

/-- C2: if `bignum_shift_left` returns any non-success status (Overflow, or
NullArgument on an absent argument), the argument is left byte-for-byte
identical: no failure path performs partial mutation. -/
theorem shift_left_error_no_mutation (num : Option bignum_t) (s : Nat)
    (h : (bignum_shift_left num s).1 ≠ bignum_shift_status_t.BIGNUM_SHIFT_SUCCESS) :
    (bignum_shift_left num s).2 = num := by
  rcases num with _ | x
  · rfl
  · simp only [bignum_shift_left] at h ⊢
    exact congrArg some (core_error_no_mutation x s h)

/-- Witness for C2 at a concrete overflowing input. -/
theorem shift_left_error_no_mutation_witness :
    (bignum_shift_left (some ⟨[0, 0, 0, 2147483648], 4⟩) 1).1 ≠
        bignum_shift_status_t.BIGNUM_SHIFT_SUCCESS ∧
      (bignum_shift_left (some ⟨[0, 0, 0, 2147483648], 4⟩) 1).2 =
        some ⟨[0, 0, 0, 2147483648], 4⟩ :=
  ⟨by decide, shift_left_error_no_mutation (some ⟨[0, 0, 0, 2147483648], 4⟩) 1 (by decide)⟩

/-- C5: shifting a zero-valued big number (`len == 0`) by any amount,
including amounts that would overflow any non-zero value, succeeds and
leaves the value zero: overflow is judged from the value's actual highest
set bit, not from the shift amount alone. -/
theorem shift_left_zero_value (x : bignum_t) (s : Nat)
    (h1 : repInv x) (h2 : x.len = 0) :
    bignum_shift_left_core x s = (bignum_shift_status_t.BIGNUM_SHIFT_SUCCESS, x) ∧
      value x = 0 := by
  obtain ⟨hlen, _, _, hzero, _⟩ := h1
  obtain ⟨a, b, c, d, hw⟩ := list_len4 x.words hlen
  constructor
  · unfold bignum_shift_left_core
    by_cases hs : s = 0
    · simp [hs]
    · simp [hs, highest_bit, h2]
  · have ha := hzero 0 (by norm_num [CAPACITY_WORDS]) (by omega)
    have hb := hzero 1 (by norm_num [CAPACITY_WORDS]) (by omega)
    have hc := hzero 2 (by norm_num [CAPACITY_WORDS]) (by omega)
    have hd := hzero 3 (by norm_num [CAPACITY_WORDS]) (by omega)
    rw [hw] at ha hb hc hd
    simp at ha hb hc hd
    simp [value, hw, ha, hb, hc, hd, wordsValue]

/-- Witness for C5: the zero value shifted by 1000000 stays zero. -/
theorem shift_left_zero_value_witness :
    bignum_shift_left_core ⟨[0, 0, 0, 0], 0⟩ 1000000 =
        (bignum_shift_status_t.BIGNUM_SHIFT_SUCCESS, ⟨[0, 0, 0, 0], 0⟩) ∧
      value ⟨[0, 0, 0, 0], 0⟩ = 0 :=
  shift_left_zero_value ⟨[0, 0, 0, 0], 0⟩ 1000000 (by decide) rfl

/-- C6: a zero-bit shift is the fast path: it returns success and leaves
the number entirely unchanged, for every big number. -/
theorem shift_left_zero_shift_noop (x : bignum_t) :
    bignum_shift_left_core x 0 = (bignum_shift_status_t.BIGNUM_SHIFT_SUCCESS, x) ∧
      bignum_shift_left (some x) 0 =
        (bignum_shift_status_t.BIGNUM_SHIFT_SUCCESS, some x) := by
  constructor
  · simp [bignum_shift_left_core]
  · simp [bignum_shift_left, bignum_shift_left_core]

/-- C7: an absent (NULL) `num` argument yields
`BIGNUM_SHIFT_ERROR_NULL_ARG` (code -1) for every shift amount — in
particular also for `shift_amount = 0`, so the NULL check precedes the
zero-shift fast path — and no state is produced or mutated. -/
theorem shift_left_null_arg (s : Nat) :
    bignum_shift_left none s =
        (bignum_shift_status_t.BIGNUM_SHIFT_ERROR_NULL_ARG, none) ∧
      statusCode (bignum_shift_left none s).1 = -1 :=
  ⟨rfl, rfl⟩

/-- C8: every call returns exactly one of the three enum statuses, whose
integer codes are 0 (success), -1 (null argument) and -2 (overflow). -/
theorem shift_left_status_complete (num : Option bignum_t) (s : Nat) :
    (statusCode (bignum_shift_left num s).1 = 0 ∨
        statusCode (bignum_shift_left num s).1 = -1 ∨
        statusCode (bignum_shift_left num s).1 = -2) ∧
      statusCode bignum_shift_status_t.BIGNUM_SHIFT_SUCCESS = 0 ∧
      statusCode bignum_shift_status_t.BIGNUM_SHIFT_ERROR_NULL_ARG = -1 ∧
      statusCode bignum_shift_status_t.BIGNUM_SHIFT_ERROR_OVERFLOW = -2 := by
  refine ⟨?_, rfl, rfl, rfl⟩
  rcases (bignum_shift_left num s).1 <;> simp [statusCode]

/-- C9: the operation is deterministic and pure: equal input states and
equal shift amounts produce equal status codes and equal final states. -/
theorem shift_left_deterministic (n1 n2 : Option bignum_t) (s1 s2 : Nat)
    (hn : n1 = n2) (hs : s1 = s2) :
    bignum_shift_left n1 s1 = bignum_shift_left n2 s2 := by
  rw [hn, hs]

/-- Witness for C9 at a concrete input. -/
theorem shift_left_deterministic_witness :
    bignum_shift_left (some ⟨[1, 0, 0, 0], 1⟩) 5 =
      bignum_shift_left (some ⟨[1, 0, 0, 0], 1⟩) 5 :=
  shift_left_deterministic (some ⟨[1, 0, 0, 0], 1⟩) (some ⟨[1, 0, 0, 0], 1⟩) 5 5 rfl rfl

/-- C10: the version accessors return the string "MAJOR.MINOR.PATCH" and
the packed integer MAJOR<<16 | MINOR<<8 | PATCH; with MAJOR=1, MINOR=0,
PATCH=0 these are "1.0.0" and 0x010000, and both accessors describe the
same version triple. -/
theorem version_accessors :
    bignum_shift_left_get_version_string = "1.0.0" ∧
      bignum_shift_left_get_version_number = 0x010000 ∧
      bignum_shift_left_get_version_number =
        (BIGNUM_SHIFT_LEFT_VER_MAJOR <<< 16) |||
          (BIGNUM_SHIFT_LEFT_VER_MINOR <<< 8) ||| BIGNUM_SHIFT_LEFT_VER_PATCH ∧
      bignum_shift_left_get_version_string =
        toString BIGNUM_SHIFT_LEFT_VER_MAJOR ++ "." ++
          toString BIGNUM_SHIFT_LEFT_VER_MINOR ++ "." ++
          toString BIGNUM_SHIFT_LEFT_VER_PATCH :=
  ⟨rfl, by decide, rfl, rfl⟩

/-- C1: whenever `bignum_shift_left` returns success on a state satisfying
the representation invariant, the stored value afterwards is exactly the
mathematical product `value(x) * 2^shift_amount`, and that product is
strictly below `2^CAPACITY_BITS` (no significant bit is lost). -/
theorem shift_left_success_value (x : bignum_t) (s : Nat) (hinv : repInv x)
    (hst : (bignum_shift_left (some x) s).1 = bignum_shift_status_t.BIGNUM_SHIFT_SUCCESS) :
    ∃ y, (bignum_shift_left (some x) s).2 = some y ∧
      value y = value x * 2 ^ s ∧ value x * 2 ^ s < 2 ^ BIGNUM_CAPACITY := by
  have h : (bignum_shift_left_core x s).1 = BIGNUM_SHIFT_SUCCESS := by
    simpa [bignum_shift_left] using hst
  obtain ⟨h1, h2⟩ := core_success_value x s hinv h
  exact ⟨(bignum_shift_left_core x s).2, by simp [bignum_shift_left], h1, h2⟩

/-- Witness for C1: 3 shifted left by 100 bits. -/
theorem shift_left_success_value_witness :
    ∃ y, (bignum_shift_left (some ⟨[3, 0, 0, 0], 1⟩) 100).2 = some y ∧
      value y = value ⟨[3, 0, 0, 0], 1⟩ * 2 ^ 100 ∧
      value ⟨[3, 0, 0, 0], 1⟩ * 2 ^ 100 < 2 ^ BIGNUM_CAPACITY :=
  shift_left_success_value ⟨[3, 0, 0, 0], 1⟩ 100 (by decide) (by decide)

/-- C4: after every successful call the representation invariant holds on
the result: `len` is the true count of significant words, all words at
index `≥ len` are zero, the top significant word is non-zero whenever
`len > 0`, and `len = 0` exactly when the stored value is zero. -/
theorem shift_left_success_invariant (x : bignum_t) (s : Nat) (hinv : repInv x)
    (hst : (bignum_shift_left_core x s).1 = bignum_shift_status_t.BIGNUM_SHIFT_SUCCESS) :
    repInv (bignum_shift_left_core x s).2 ∧
      (bignum_shift_left_core x s).2.len =
        sigLen (bignum_shift_left_core x s).2.words ∧
      ((bignum_shift_left_core x s).2.len = 0 ↔
        value (bignum_shift_left_core x s).2 = 0) := by
  have hres := core_success_repInv x s hinv hst
  exact ⟨hres, repInv_len_eq_sigLen _ hres, repInv_len_zero_iff _ hres⟩

/-- Witness for C4 at a concrete successful shift. -/
theorem shift_left_success_invariant_witness :
    repInv (bignum_shift_left_core ⟨[0xdeadbeef, 0x12345, 0, 0], 2⟩ 37).2 ∧
      (bignum_shift_left_core ⟨[0xdeadbeef, 0x12345, 0, 0], 2⟩ 37).2.len =
        sigLen (bignum_shift_left_core ⟨[0xdeadbeef, 0x12345, 0, 0], 2⟩ 37).2.words ∧
      ((bignum_shift_left_core ⟨[0xdeadbeef, 0x12345, 0, 0], 2⟩ 37).2.len = 0 ↔
        value (bignum_shift_left_core ⟨[0xdeadbeef, 0x12345, 0, 0], 2⟩ 37).2 = 0) :=
  shift_left_success_invariant ⟨[0xdeadbeef, 0x12345, 0, 0], 2⟩ 37
    (by decide) (by decide)

/-! ### Overflow boundary -/

theorem core_ne_null (x : bignum_t) (s : Nat) :
    (bignum_shift_left_core x s).1 ≠ BIGNUM_SHIFT_ERROR_NULL_ARG := by
  unfold bignum_shift_left_core
  by_cases hs : s = 0
  · simp [hs]
  rcases hb : highest_bit x with _ | hv
  · simp [hs, hb]
  · by_cases hcap : BIGNUM_CAPACITY ≤ hv + s
    · simp [hs, hb, hcap]
    · simp [hs, hb, hcap]

/-- On a non-zero value and positive shift, overflow is reported exactly
when the highest set bit plus the shift reaches the capacity. -/
theorem core_overflow_iff (x : bignum_t) (s : Nat) (hinv : repInv x)
    (hl : 0 < x.len) (hs : 0 < s) :
    ((bignum_shift_left_core x s).1 = BIGNUM_SHIFT_ERROR_OVERFLOW ↔
      BIGNUM_CAPACITY ≤ Nat.log2 (value x) + s) := by
  obtain ⟨hhb, _⟩ := highest_bit_eq x hinv hl
  unfold bignum_shift_left_core
  rw [if_neg (by omega), hhb]
  simp only []
  by_cases hcap : BIGNUM_CAPACITY ≤ Nat.log2 (value x) + s
  · rw [if_pos hcap]
    simpa using hcap
  · rw [if_neg hcap]
    simpa using hcap

theorem value_singleBit (p : Nat) (hp : p < 128) :
    value (singleBit p) = 2 ^ p := by
  have h4 : p / 32 = 0 ∨ p / 32 = 1 ∨ p / 32 = 2 ∨ p / 32 = 3 := by omega
  rcases h4 with h | h | h | h <;>
    · simp only [value, singleBit, range4, List.map, W, h]
      norm_num [wordsValue]
      first
        | omega
        | (simp only [W]
           simp only [← pow_add]
           congr 1
           omega)

theorem repInv_singleBit (p : Nat) (hp : p < 128) : repInv (singleBit p) := by
  have hpow : 2 ^ (p % 32) < 4294967296 := by
    calc 2 ^ (p % 32) < 2 ^ 32 :=
          Nat.pow_lt_pow_right (by norm_num) (Nat.mod_lt _ (by norm_num))
      _ = 4294967296 := by norm_num
  have hne : (2 : Nat) ^ (p % 32) ≠ 0 :=
    Nat.pos_iff_ne_zero.mp (Nat.pos_pow_of_pos _ (by norm_num))
  refine ⟨by simp [singleBit, CAPACITY_WORDS], ?_, ?_, ?_, ?_⟩
  · intro w hw
    simp only [singleBit, range4, List.map, List.mem_cons, List.not_mem_nil,
      or_false] at hw
    rcases hw with h | h | h | h <;> rw [h] <;> split <;> simp [W, hpow]
  · simp only [singleBit, CAPACITY_WORDS, W]
    omega
  · intro i hi hlen
    simp only [singleBit, W] at hlen
    simp only [CAPACITY_WORDS] at hi
    simp only [singleBit, range4, List.map, W]
    have hc : i = 1 ∨ i = 2 ∨ i = 3 := by omega
    rcases hc with hc | hc | hc <;> subst hc <;>
      · simp only [List.getD_cons_succ, List.getD_cons_zero]
        rw [if_neg (by omega)]
  · intro _
    simp only [singleBit, W, Nat.add_sub_cancel]
    have h4 : p / 32 = 0 ∨ p / 32 = 1 ∨ p / 32 = 2 ∨ p / 32 = 3 := by omega
    rcases h4 with h | h | h | h <;>
      · rw [h]
        simp only [range4, List.map, List.getD_cons_succ, List.getD_cons_zero]
        simp [hne]

/-- C3: overflow is reported if and only if the highest set bit position
plus the shift amount reaches `CAPACITY_BITS`; in particular a value whose
single set bit is at position `CAPACITY_BITS - 1 - k` shifts by `k` to
success with its top bit landing exactly at `CAPACITY_BITS - 1`, while
shifting it by `k + 1` fails with Overflow. -/
theorem shift_left_overflow_boundary (x : bignum_t) (s k : Nat)
    (hinv : repInv x) (hvx : value x ≠ 0) (hs : 0 < s) (hk : k ≤ 127) :
    ((bignum_shift_left_core x s).1 = bignum_shift_status_t.BIGNUM_SHIFT_ERROR_OVERFLOW ↔
        BIGNUM_CAPACITY ≤ Nat.log2 (value x) + s) ∧
      (bignum_shift_left_core (singleBit (127 - k)) k).1 =
        bignum_shift_status_t.BIGNUM_SHIFT_SUCCESS ∧
      value (bignum_shift_left_core (singleBit (127 - k)) k).2 = 2 ^ 127 ∧
      Nat.log2 (value (bignum_shift_left_core (singleBit (127 - k)) k).2) = 127 ∧
      (bignum_shift_left_core (singleBit (127 - k)) (k + 1)).1 =
        bignum_shift_status_t.BIGNUM_SHIFT_ERROR_OVERFLOW := by
  have hlpos : 0 < x.len := by
    rcases Nat.eq_zero_or_pos x.len with h | h
    · exact absurd (value_eq_zero_of_len_zero x hinv h) hvx
    · exact h
  have hp : 127 - k < 128 := by omega
  have hrp := repInv_singleBit (127 - k) hp
  have hvp := value_singleBit (127 - k) hp
  have hlp : 0 < (singleBit (127 - k)).len := by
    simp [singleBit]
  have hlog : Nat.log2 (value (singleBit (127 - k))) = 127 - k := by
    rw [hvp, Nat.log2_two_pow]
  have hsucc : (bignum_shift_left_core (singleBit (127 - k)) k).1 =
      BIGNUM_SHIFT_SUCCESS := by
    by_cases hk0 : k = 0
    · subst hk0
      simp [bignum_shift_left_core]
    · have hiff := core_overflow_iff (singleBit (127 - k)) k hrp hlp
        (Nat.pos_of_ne_zero hk0)
      rw [hlog] at hiff
      cases hstat : (bignum_shift_left_core (singleBit (127 - k)) k).1 with
      | BIGNUM_SHIFT_SUCCESS => rfl
      | BIGNUM_SHIFT_ERROR_NULL_ARG => exact absurd hstat (core_ne_null _ _)
      | BIGNUM_SHIFT_ERROR_OVERFLOW =>
        have := hiff.1 hstat
        simp only [BIGNUM_CAPACITY, CAPACITY_WORDS, W] at this
        omega
  have hval : value (bignum_shift_left_core (singleBit (127 - k)) k).2 =
      2 ^ 127 := by
    obtain ⟨h1, _⟩ := core_success_value (singleBit (127 - k)) k hrp hsucc
    rw [h1, hvp, ← pow_add]
    congr 1
    omega
  refine ⟨core_overflow_iff x s hinv hlpos hs, hsucc, hval, ?_, ?_⟩
  · rw [hval, Nat.log2_two_pow]
  · apply (core_overflow_iff (singleBit (127 - k)) (k + 1) hrp hlp
      (by omega)).2
    rw [hlog]
    simp only [BIGNUM_CAPACITY, CAPACITY_WORDS, W]
    omega

/-- Witness for C3 at concrete inputs: x = 1 with shift 128 overflows, and
the boundary family at k = 3. -/
theorem shift_left_overflow_boundary_witness :
    ((bignum_shift_left_core ⟨[1, 0, 0, 0], 1⟩ 128).1 =
        bignum_shift_status_t.BIGNUM_SHIFT_ERROR_OVERFLOW ↔
        BIGNUM_CAPACITY ≤ Nat.log2 (value ⟨[1, 0, 0, 0], 1⟩) + 128) ∧
      (bignum_shift_left_core (singleBit (127 - 3)) 3).1 =
        bignum_shift_status_t.BIGNUM_SHIFT_SUCCESS ∧
      value (bignum_shift_left_core (singleBit (127 - 3)) 3).2 = 2 ^ 127 ∧
      Nat.log2 (value (bignum_shift_left_core (singleBit (127 - 3)) 3).2) = 127 ∧
      (bignum_shift_left_core (singleBit (127 - 3)) (3 + 1)).1 =
        bignum_shift_status_t.BIGNUM_SHIFT_ERROR_OVERFLOW :=
  shift_left_overflow_boundary ⟨[1, 0, 0, 0], 1⟩ 128 3
    (by decide) (by decide) (by decide) (by decide)

end BignumShiftLeft
